import Mathlib

/-!
Shallow embedding of the LitGNN CMPNN core (src/litgnn/nn/models/cmpnn/model.py,
with the earlier variant src/litgnn/models/cmpnn/model.py and the PNA wrapper
src/litgnn/models/pna.py), and proofs about it.

Matrices are lists of rows over an arbitrary linear ordered commutative ring
(every operation of this core is ring-expressible, so concrete witnesses can be
evaluated over the integers while the theorems cover the reals); indexing is
modelled totally via List.getD, with in-bounds facts stated as hypotheses of the
theorems (the tensor library would raise on an out-of-bounds index).  The places
where the code's behaviour hinges on the tensor library's broadcast rules (the
leading-dimension broadcast of elementwise addition and subtraction, and slice
assignment) are modelled explicitly; an incompatible pair of row counts is an
Except error, mirroring the runtime size-mismatch error.
-/

namespace LitGNN

/-- A row of a dense 2-D tensor. -/
abbrev Row (α : Type) := List α

/-- A dense 2-D tensor as its list of rows. -/
abbrev Mat (α : Type) := List (Row α)

variable {α : Type} [LinearOrderedCommRing α]

/-- Elementwise rectifier on a row, as in F.relu. -/
def reluRow (r : Row α) : Row α := r.map (fun a => max a 0)

/-- Dot product of two rows. -/
def dotRow (a b : Row α) : α := (List.zipWith (fun x y => x * y) a b).sum

/-- Dense linear layer y = W v + b, W given as its list of output rows, as in nn.Linear. -/
def linearRow (w : Mat α) (b : Row α) (v : Row α) : Row α :=
  List.zipWith (fun x y => x + y) (w.map (fun wr => dotRow wr v)) b

/-- A zero row of the given width. -/
def zerosRow (h : ℕ) : Row α := List.replicate h 0

/-- Elementwise addition of two rows under the trailing-dimension broadcast rule of
the tensor library: equal widths add pointwise and a width-1 operand is stretched to
the other operand's width.  Any other pair of widths would raise at runtime; those
inputs are excluded by hypotheses wherever this is used in a theorem. -/
def baddRow (a b : Row α) : Row α :=
  if a.length = b.length then List.zipWith (fun x y => x + y) a b
  else if a.length = 1 then b.map (fun y => a.getD 0 0 + y)
  else if b.length = 1 then a.map (fun x => x + b.getD 0 0)
  else List.zipWith (fun x y => x + y) a b

/-- Error message of the tensor library when two stacked shapes cannot be broadcast. -/
def sizeMismatchMsg : String := "The size of tensor a must match the size of tensor b"

/-- Row-wise subtraction of two stacked tensors under the leading-dimension broadcast
rule: equal row counts subtract row by row, a 1-row operand is broadcast against the
other operand's row count (so one row against zero rows yields zero rows), and any
other pair of row counts is the runtime size-mismatch error. -/
def subMatB (a b : Mat α) : Except String (Mat α) :=
  if a.length = b.length then .ok (List.zipWith (fun r s => List.zipWith (fun x y => x - y) r s) a b)
  else if a.length = 1 then .ok (b.map (fun s => List.zipWith (fun x y => x - y) (a.getD 0 []) s))
  else if b.length = 1 then .ok (a.map (fun r => List.zipWith (fun x y => x - y) r (b.getD 0 [])))
  else .error sizeMismatchMsg

/-- Row-wise addition with the same leading-dimension broadcast rule as subMatB. -/
def addMatB (a b : Mat α) : Except String (Mat α) :=
  if a.length = b.length then .ok (List.zipWith (fun r s => List.zipWith (fun x y => x + y) r s) a b)
  else if a.length = 1 then .ok (b.map (fun s => List.zipWith (fun x y => x + y) (a.getD 0 []) s))
  else if b.length = 1 then .ok (a.map (fun r => List.zipWith (fun x y => x + y) r (b.getD 0 [])))
  else .error sizeMismatchMsg

/-- Payload of an ok result, with a default for the error case. -/
def okD {ε β : Type} (d : β) : Except ε β → β
  | .ok v => v
  | .error _ => d

namespace NodeEdgeMessageCommunicator

/-- Mirrors NodeEdgeMessageCommunicator.forward: dispatch on the policy name; additive
is hidden_state + message and inner_product is hidden_state * message, both elementwise;
gru calls the learned cell with hidden_state in the input slot and message in the state
slot, exactly as the code does; mlp concatenates hidden_state with message and applies
the learned linear projection followed by the rectifier.  The trailing branch is
unreachable because construction asserts the name is one of the four. -/
def forward (name : String) (gruCell : Row α → Row α → Row α) (mlpW : Mat α) (mlpB : Row α)
    (message hidden_state : Row α) : Row α :=
  if name = "additive" then List.zipWith (fun x y => x + y) hidden_state message
  else if name = "inner_product" then List.zipWith (fun x y => x * y) hidden_state message
  else if name = "gru" then gruCell hidden_state message
  else if name = "mlp" then reluRow (linearRow mlpW mlpB (hidden_state ++ message))
  else []

end NodeEdgeMessageCommunicator

/-- Edges whose aggregation index is node n.  Both convolution classes aggregate their
messages at edge_index_i; for the nn variant (default source_to_target flow) that is
row 1 of edge_index, passed here as edge_index1. -/
def incomingEdges (edge_index1 : List ℕ) (num_edges n : ℕ) : List ℕ :=
  (List.range num_edges).filter (fun e => edge_index1.getD e 0 == n)

/-- Columnwise sum of a stack of equal-width rows; the empty stack sums to zero. -/
def sumRowsW (h : ℕ) (l : Mat α) : Row α :=
  l.foldr (fun r acc => List.zipWith (fun x y => x + y) r acc) (zerosRow h)

/-- Columnwise maximum of a stack of equal-width rows.  Modelled from the spec for the
empty stack: an isolated node receives the identity (zero) aggregate. -/
def maxRowsW (h : ℕ) : Mat α → Row α
  | [] => zerosRow h
  | r :: rs => rs.foldl (fun acc q => List.zipWith max acc q) r

/-- Modelled from the spec: the message_booster fusion mode of the paired
SumAggregation/MaxAggregation is registered outside these source files, and the spec
leaves the exact fusion an implementation choice, so it is an explicit parameter
booster here.  aggregateMessages gathers each node's incoming edge embeddings (the
message function is the identity on edge_attr) and fuses their columnwise sum and
columnwise maximum. -/
def aggregateMessages (booster : Row α → Row α → Row α) (hidden : ℕ)
    (edge_attr : Mat α) (edge_index1 : List ℕ) (num_nodes : ℕ) : Mat α :=
  (List.range num_nodes).map (fun n =>
    let inc := (incomingEdges edge_index1 edge_attr.length n).map (fun e => edge_attr.getD e [])
    booster (sumRowsW hidden inc) (maxRowsW hidden inc))

/-- The propagate pipeline shared by both convolution classes: message is the identity
on edge_attr, aggregation fuses sum and max per node with dim_size forced to the node
count, and the update step applies the communicator to the aggregated message and the
prior node embedding x. -/
def propagateStep (commName : String) (commGru : Row α → Row α → Row α)
    (commMlpW : Mat α) (commMlpB : Row α) (booster : Row α → Row α → Row α) (hidden : ℕ)
    (x edge_attr : Mat α) (edge_index1 : List ℕ) : Mat α :=
  (List.range x.length).map (fun n =>
    NodeEdgeMessageCommunicator.forward commName commGru commMlpW commMlpB
      ((aggregateMessages booster hidden edge_attr edge_index1 x.length).getD n [])
      (x.getD n []))

namespace GCNEConv

/-- Mirrors GCNEConv.get_reverse_edge_index: the list built by extending with the pair
[2 i + 1, 2 i] for every i below num_edges / 2 (integer division, as int(E / 2)). -/
def get_reverse_edge_index (num_edges : ℕ) : List ℕ :=
  (List.range (num_edges / 2)).flatMap (fun i => [2 * i + 1, 2 * i])

/-- The paired reverse index under the consecutive forward/backward layout: edge 2 k is
paired with 2 k + 1 and conversely. -/
def pairIdx (e : ℕ) : ℕ := if e % 2 = 0 then e + 1 else e - 1

/-- Mirrors GCNEConv.edge_update of the nn variant: gather x at edge_index[0] and
edge_attr at the computed reverse indices, subtract, apply the learned linear
projection, add the initial (pre-any-layer) edge embedding as a residual, rectify,
then apply dropout.  Dropout is modelled as an elementwise map drop supplied by the
caller (it is the identity in eval mode). -/
def edge_update (linW : Mat α) (linB : Row α) (drop : α → α)
    (x : Mat α) (edge_index0 : List ℕ) (edge_attr init_edge_embed : Mat α) :
    Except String (Mat α) := do
  let diff ← subMatB (edge_index0.map (fun i => x.getD i []))
    ((get_reverse_edge_index edge_attr.length).map (fun j => edge_attr.getD j []))
  let added ← addMatB init_edge_embed (diff.map (fun r => linearRow linW linB r))
  pure (added.map (fun r => (reluRow r).map drop))

/-- Modelled from the spec for comparison with edge_update: the claim's wording reads
the updated node embedding at the edge's head dst, which is row 1 of edge_index under
the layer's source_to_target flow, instead of the code's row 0. -/
def edge_update_spec_dst (linW : Mat α) (linB : Row α) (drop : α → α)
    (x : Mat α) (edge_index1 : List ℕ) (edge_attr init_edge_embed : Mat α) :
    Except String (Mat α) := do
  let diff ← subMatB (edge_index1.map (fun i => x.getD i []))
    ((get_reverse_edge_index edge_attr.length).map (fun j => edge_attr.getD j []))
  let added ← addMatB init_edge_embed (diff.map (fun r => linearRow linW linB r))
  pure (added.map (fun r => (reluRow r).map drop))

/-- Mirrors GCNEConv.forward: propagate to obtain the updated node embeddings, then
run the edge updater on exactly those updated embeddings; returns the pair of updated
node and edge embeddings. -/
def forward (commName : String) (commGru : Row α → Row α → Row α)
    (commMlpW : Mat α) (commMlpB : Row α) (booster : Row α → Row α → Row α) (hidden : ℕ)
    (linW : Mat α) (linB : Row α) (drop : α → α)
    (x edge_attr : Mat α) (edge_index0 edge_index1 : List ℕ) (init_edge_embed : Mat α) :
    Except String (Mat α × Mat α) :=
  let x2 := propagateStep commName commGru commMlpW commMlpB booster hidden x edge_attr edge_index1
  (edge_update linW linB drop x2 edge_index0 edge_attr init_edge_embed).map (fun ea => (x2, ea))

end GCNEConv

namespace GCNConv

/-- Mirrors GCNConv.forward, the final-layer convolution: the same propagate pipeline
(message, fused aggregation, communicator update) and no edge updater at all. -/
def forward (commName : String) (commGru : Row α → Row α → Row α)
    (commMlpW : Mat α) (commMlpB : Row α) (booster : Row α → Row α → Row α) (hidden : ℕ)
    (x edge_attr : Mat α) (edge_index1 : List ℕ) : Mat α :=
  propagateStep commName commGru commMlpW commMlpB booster hidden x edge_attr edge_index1

end GCNConv

namespace BatchGRU

/-- Sorted list of the distinct graph ids of the assignment vector, as torch.unique
returns them. -/
def uniqueSorted (batch : List ℕ) : List ℕ :=
  (List.range (batch.foldr max 0 + 1)).filter (fun v => batch.contains v)

/-- Positions of the nodes assigned to graph v, in increasing node order (the nonzero
positions of the mask batch == v). -/
def indicesOf (batch : List ℕ) (v : ℕ) : List ℕ :=
  (List.range batch.length).filter (fun i => batch.getD i 0 == v)

/-- Columnwise maximum of a nonempty stack of rows, tensor.max over dimension 0. -/
def maxRows : Mat α → Row α
  | [] => []
  | r :: rs => rs.foldl (fun acc q => List.zipWith max acc q) r

/-- Tensor slice assignment broadcast: writing a width-1 row into a width-w slot
replicates its entry; a row of the slot's width is written as is.  Other widths would
raise and are excluded by hypotheses where a theorem needs them. -/
def assignRow (w : ℕ) (r : Row α) : Row α :=
  if r.length = 1 then List.replicate w (r.getD 0 0) else r

/-- States of the forward recurrent scan, one per position, seeded with seed; entry t
is the forward-direction output at position t. -/
def gruSeqF (cell : Row α → Row α → Row α) (seed : Row α) (inputs : Mat α) : Mat α :=
  (inputs.scanl (fun s xin => cell xin s) seed).drop 1

/-- States of the backward recurrent scan: entry t is the backward-direction output at
position t, the state after consuming positions from the end of the sequence down to
t, seeded with seed at the end. -/
def gruSeqB (cell : Row α → Row α → Row α) (seed : Row α) (inputs : Mat α) : Mat α :=
  (gruSeqF cell seed inputs.reverse).reverse

/-- The padded input sequence of graph v inside the G x m x hidden messages tensor:
the rectified biased rows message = relu(h_atom + bias) of its member nodes in their
original order, and the zero rows of the tensor beyond its node count, up to the batch
maximum m. -/
def graph_inputs (hidden : ℕ) (bias : Row α) (h_atom : Mat α) (batch : List ℕ)
    (m v : ℕ) : Mat α :=
  let message := h_atom.map (fun r => reluRow (baddRow r bias))
  let idxs := indicesOf batch v
  idxs.map (fun i => assignRow hidden (message.getD i []))
    ++ List.replicate (m - idxs.length) (zerosRow hidden)

/-- The initial recurrent state of graph v: the columnwise maximum of the member rows
of the pre-activation h_atom, written into a width-hidden slot of the 2 x G x hidden
state tensor; the code assigns this one value to both directions at once. -/
def graph_seed (hidden : ℕ) (h_atom : Mat α) (batch : List ℕ) (v : ℕ) : Row α :=
  assignRow hidden (maxRows ((indicesOf batch v).map (fun i => h_atom.getD i [])))

/-- Mirrors BatchGRU.forward: pack each graph's rectified biased messages into a
padded per-graph sequence of length m (the maximum member count), run the
bidirectional recurrence with both directions seeded by graph_seed, concatenate the
forward and backward outputs per position, and unpad by giving node n the row of its
graph's output at n's rank inside its graph. -/
def forward (cellF cellB : Row α → Row α → Row α) (hidden : ℕ) (bias : Row α)
    (h_atom : Mat α) (batch : List ℕ) : Mat α :=
  let m := ((uniqueSorted batch).map (fun v => batch.count v)).foldr max 0
  (List.range h_atom.length).map (fun n =>
    let v := batch.getD n 0
    let inputs := graph_inputs hidden bias h_atom batch m v
    let seed := graph_seed hidden h_atom batch v
    (List.zipWith (fun a b => a ++ b) (gruSeqF cellF seed inputs)
        (gruSeqB cellB seed inputs)).getD ((batch.take n).count v) [])

end BatchGRU

/-- Parameters of one edge-updating convolution layer. -/
structure GCNEConvParams (α : Type) where
  commName : String
  commGru : Row α → Row α → Row α
  commMlpW : Mat α
  commMlpB : Row α
  linW : Mat α
  linB : Row α
  drop : α → α

/-- Parameters of the full CMPNN module: the two input projections, the stack of
edge-updating layers, the final-layer communicator, the fused-aggregation booster, the
3 H to out_channels linear combination, the readout bias and its two recurrent cells
(the external recurrent primitive, kept as explicit functions), and the output head. -/
structure CMPNNParams (α : Type) where
  hidden : ℕ
  atomW : Mat α
  atomB : Row α
  bondW : Mat α
  bondB : Row α
  convs : List (GCNEConvParams α)
  finalCommName : String
  finalCommGru : Row α → Row α → Row α
  finalCommMlpW : Mat α
  finalCommMlpB : Row α
  booster : Row α → Row α → Row α
  linW : Mat α
  linB : Row α
  gruBias : Row α
  cellF : Row α → Row α → Row α
  cellB : Row α → Row α → Row α
  seqW : Mat α
  seqB : Row α
  seqDrop : α → α

namespace CMPNN

/-- Mirrors the construction-time assert of NodeEdgeMessageCommunicator.__init__:
the policy name must be one of the four. -/
def mkCommunicator (name : String) : Except String Unit :=
  if name = "additive" ∨ name = "inner_product" ∨ name = "gru" ∨ name = "mlp"
  then .ok () else .error "Invalid communicator"

/-- The loop of CMPNN.__init__ appending the edge-updating layers: each constructs a
communicator, whose assert validates the policy name. -/
def buildConvs (name : String) : ℕ → Except String (List String)
  | 0 => .ok []
  | k + 1 => do
    mkCommunicator name
    let rest ← buildConvs name k
    pure ("GCNEConv" :: rest)

/-- Mirrors the layer construction of CMPNN.__init__: num_layers - 1 edge-updating
layers followed by one final convolution layer, each validating the communicator name;
num_layers enters a Python range, which clamps below zero, and no check on num_layers
itself occurs anywhere. -/
def init (num_layers : ℤ) (communicator_name : String) : Except String (List String) := do
  let convs ← buildConvs communicator_name (num_layers - 1).toNat
  mkCommunicator communicator_name
  pure (convs ++ ["GCNConv"])

/-- Mirrors CMPNN.forward: project atoms and bonds into hidden width, run the
edge-updating layers with the untouched initial bond embedding as residual anchor,
run the final layer for the aggregated message, concatenate [aggregated message,
current node embedding, initial node embedding] and project through lin, run the
batched readout, and apply the output head seq_out. -/
def forward (p : CMPNNParams α) (x edge_attr : Mat α)
    (edge_index0 edge_index1 : List ℕ) (batch : List ℕ) : Except String (Mat α) := do
  let init_atom_embed := x.map (fun r => reluRow (linearRow p.atomW p.atomB r))
  let init_bond_embed := edge_attr.map (fun r => reluRow (linearRow p.bondW p.bondB r))
  let ab ← p.convs.foldlM
    (fun ab cp =>
      GCNEConv.forward cp.commName cp.commGru cp.commMlpW cp.commMlpB p.booster p.hidden
        cp.linW cp.linB cp.drop ab.1 ab.2 edge_index0 edge_index1 init_bond_embed)
    (init_atom_embed, init_bond_embed)
  let aggr_message := GCNConv.forward p.finalCommName p.finalCommGru p.finalCommMlpW
    p.finalCommMlpB p.booster p.hidden ab.1 ab.2 edge_index1
  let combined := (List.range x.length).map (fun n =>
    linearRow p.linW p.linB
      (aggr_message.getD n [] ++ ab.1.getD n [] ++ init_atom_embed.getD n []))
  let after_gru := BatchGRU.forward p.cellF p.cellB p.hidden p.gruBias combined batch
  pure (after_gru.map (fun r => (reluRow (linearRow p.seqW p.seqB r)).map p.seqDrop))

end CMPNN

namespace PNA

/-- The class-level cached degree histogram of the PNA wrapper, which starts as None. -/
def initDeg {D : Type} : Option D := none

/-- Mirrors PNA.compute_degree: overwrite the class-level cache with the degree
histogram the external collaborator computes from the dataloader (the histogram value
is produced outside these sources and passed in here as hist). -/
def compute_degree {D : Type} (hist : D) (_deg : Option D) : Option D := some hist

/-- Mirrors PNA.__init__: assert the cached histogram is not None, then construct the
instance from the caller's kwargs extended with deg set to the cached histogram. -/
def construct {D K : Type} (deg : Option D) (kwargs : K) : Except String (K × D) :=
  match deg with
  | none => .error "deg cannot be None. Please call PNA.compute_degree before instantiating the class."
  | some d => .ok (kwargs, d)

end PNA

/-- Modelled from the spec: the per-step cell of the external gated recurrent
primitive in the scalar case, parameterized by its gating activation sg and candidate
activation th and by its weights; this is the standard cell update
r = sg(wir x + bir + whr h + bhr), z = sg(wiz x + biz + whz h + bhz),
n = th(win x + bin + r (whn h + bhn)), new state (1 - z) n + z h. -/
def gruCellStd (sg th : α → α) (wir whr bir bhr wiz whz biz bhz win whn bin bhn : α)
    (x h : α) : α :=
  let r := sg (wir * x + bir + whr * h + bhr)
  let z := sg (wiz * x + biz + whz * h + bhz)
  let n := th (win * x + bin + r * (whn * h + bhn))
  (1 - z) * n + z * h

/-- A concrete CMPNN parameter set over the integers with hidden_channels = 2 and
out_channels = 1 (linW has a single output row), one layer (so the conv stack is just
the final convolution), the additive communicator, elementwise-product fusion, the
external recurrent cells instantiated with the identity map, and dropout the identity
(eval mode).  Used to settle the output-shape claim on a batch of one single-node
graph with no edges. -/
def cex5P : CMPNNParams ℤ :=
  { hidden := 2
    atomW := [[1], [1]]
    atomB := [0, 0]
    bondW := [[1], [1]]
    bondB := [0, 0]
    convs := []
    finalCommName := "additive"
    finalCommGru := fun _ _ => []
    finalCommMlpW := []
    finalCommMlpB := []
    booster := fun s m => List.zipWith (fun a b => a * b) s m
    linW := [[1, 1, 1, 1, 1, 1]]
    linB := [0]
    gruBias := [0, 0]
    cellF := fun _ h => h
    cellB := fun _ h => h
    seqW := [[1, 1, 1, 1], [1, 1, 1, 1]]
    seqB := [0, 0]
    seqDrop := fun a => a }

/-! Auxiliary list lemmas used throughout the development. -/

theorem getD_map_lt {β γ : Type} (f : β → γ) (l : List β) (i : ℕ) (h : i < l.length)
    (d : β) (d2 : γ) : (l.map f).getD i d2 = f (l.getD i d) := by
  induction l generalizing i with
  | nil => exact absurd h (Nat.not_lt_zero i)
  | cons x xs ih =>
    cases i with
    | zero => rfl
    | succ n => exact ih n (Nat.lt_of_succ_lt_succ h)

theorem getD_zipWith_lt {β γ δ : Type} (f : β → γ → δ) (a : List β) (b : List γ) (i : ℕ)
    (ha : i < a.length) (hb : i < b.length) (da : β) (db : γ) (dc : δ) :
    (List.zipWith f a b).getD i dc = f (a.getD i da) (b.getD i db) := by
  induction a generalizing b i with
  | nil => exact absurd ha (Nat.not_lt_zero i)
  | cons x xs ih =>
    cases b with
    | nil => exact absurd hb (Nat.not_lt_zero i)
    | cons y ys =>
      cases i with
      | zero => rfl
      | succ n => exact ih ys n (Nat.lt_of_succ_lt_succ ha) (Nat.lt_of_succ_lt_succ hb)

theorem getD_append_lt {β : Type} (a b : List β) (i : ℕ) (h : i < a.length) (d : β) :
    (a ++ b).getD i d = a.getD i d := by
  induction a generalizing i with
  | nil => exact absurd h (Nat.not_lt_zero i)
  | cons x xs ih =>
    cases i with
    | zero => rfl
    | succ n => exact ih n (Nat.lt_of_succ_lt_succ h)

theorem getD_append_ge {β : Type} (a b : List β) (i : ℕ) (h : a.length ≤ i) (d : β) :
    (a ++ b).getD i d = b.getD (i - a.length) d := by
  induction a generalizing i with
  | nil => simp
  | cons x xs ih =>
    cases i with
    | zero => simp at h
    | succ n =>
      have := ih n (Nat.le_of_succ_le_succ h)
      simpa [Nat.succ_sub_succ] using this

theorem getD_replicate_lt {β : Type} (n i : ℕ) (x d : β) (h : i < n) :
    (List.replicate n x).getD i d = x := by
  induction n generalizing i with
  | zero => exact absurd h (Nat.not_lt_zero i)
  | succ m ih =>
    cases i with
    | zero => rfl
    | succ k => exact ih k (Nat.lt_of_succ_lt_succ h)

theorem getD_range_lt (n i : ℕ) (h : i < n) (d : ℕ) : (List.range n).getD i d = i := by
  induction n with
  | zero => exact absurd h (Nat.not_lt_zero i)
  | succ m ih =>
    rw [List.range_succ]
    rcases Nat.lt_or_ge i m with h2 | h2
    · rw [getD_append_lt _ _ _ (by simpa using h2)]
      exact ih h2
    · have him : i = m := by omega
      subst him
      rw [getD_append_ge _ _ _ (by simp)]
      simp

theorem getD_mem_of_lt {β : Type} (l : List β) (i : ℕ) (h : i < l.length) (d : β) :
    l.getD i d ∈ l := by
  rw [List.getD_eq_getElem l d h]
  exact List.getElem_mem h

theorem assignRow_of_length (w : ℕ) (r : Row α) (h : r.length = w) :
    BatchGRU.assignRow w r = r := by
  unfold BatchGRU.assignRow
  by_cases h1 : r.length = 1
  · rw [if_pos h1]
    obtain ⟨a, rfl⟩ := List.length_eq_one.mp h1
    have hw : w = 1 := by omega
    subst hw
    rfl
  · rw [if_neg h1]

theorem baddRow_of_length_eq (a b : Row α) (h : a.length = b.length) :
    baddRow a b = List.zipWith (fun x y => x + y) a b := by
  unfold baddRow
  rw [if_pos h]

/-! Lemmas on the reverse-edge index list. -/

theorem revFlat_length (k : ℕ) :
    ((List.range k).flatMap (fun i => [2 * i + 1, 2 * i])).length = 2 * k := by
  induction k with
  | zero => rfl
  | succ m ih =>
    rw [List.range_succ, List.flatMap_append]
    simp only [List.length_append, ih]
    simp
    omega

theorem pairIdx_involution (t : ℕ) : GCNEConv.pairIdx (GCNEConv.pairIdx t) = t := by
  unfold GCNEConv.pairIdx
  by_cases h : t % 2 = 0
  · rw [if_pos h, if_neg (by omega)]
    omega
  · rw [if_neg h, if_pos (by omega)]
    omega

theorem revFlat_getD (k t : ℕ) (ht : t < 2 * k) :
    ((List.range k).flatMap (fun i => [2 * i + 1, 2 * i])).getD t 0 = GCNEConv.pairIdx t := by
  induction k with
  | zero => exact absurd ht (by omega)
  | succ m ih =>
    rw [List.range_succ, List.flatMap_append]
    rcases Nat.lt_or_ge t (2 * m) with h2 | h2
    · rw [getD_append_lt _ _ _ (by rw [revFlat_length]; exact h2)]
      exact ih h2
    · rw [getD_append_ge _ _ _ (by rw [revFlat_length]; exact h2), revFlat_length]
      have h3 : t = 2 * m ∨ t = 2 * m + 1 := by omega
      rcases h3 with rfl | rfl
      · simp [GCNEConv.pairIdx, Nat.mul_mod_right]
      · have h4 : 2 * m + 1 - 2 * m = 1 := by omega
        rw [h4]
        unfold GCNEConv.pairIdx
        rw [if_neg (by omega)]
        simp

theorem get_reverse_edge_index_length (n : ℕ) :
    (GCNEConv.get_reverse_edge_index n).length = 2 * (n / 2) := revFlat_length _

theorem get_reverse_edge_index_getD (n t : ℕ) (h : t < 2 * (n / 2)) :
    (GCNEConv.get_reverse_edge_index n).getD t 0 = GCNEConv.pairIdx t := revFlat_getD _ _ h

/-- C4: for every even edge count E, get_reverse_edge_index E has length E, maps index
2 k to 2 k + 1 and index 2 k + 1 to 2 k, and is an involution with no fixed points; in
particular edge index 0 is sent to 1 and edge index 1 to 0. -/
theorem c4_reverse_edge_pairing (E : ℕ) (hE : E % 2 = 0) :
    (GCNEConv.get_reverse_edge_index E).length = E ∧
    (∀ k, 2 * k + 1 < E →
      (GCNEConv.get_reverse_edge_index E).getD (2 * k) 0 = 2 * k + 1 ∧
      (GCNEConv.get_reverse_edge_index E).getD (2 * k + 1) 0 = 2 * k) ∧
    (∀ j, j < E →
      (GCNEConv.get_reverse_edge_index E).getD ((GCNEConv.get_reverse_edge_index E).getD j 0) 0 = j ∧
      (GCNEConv.get_reverse_edge_index E).getD j 0 ≠ j) := by
  have h2 : 2 * (E / 2) = E := by omega
  refine ⟨by rw [get_reverse_edge_index_length, h2], fun k hk => ⟨?_, ?_⟩, fun j hj => ?_⟩
  · rw [get_reverse_edge_index_getD _ _ (by omega)]
    simp [GCNEConv.pairIdx, Nat.mul_mod_right]
  · rw [get_reverse_edge_index_getD _ _ (by omega)]
    unfold GCNEConv.pairIdx
    rw [if_neg (by omega)]
    omega
  · have hp : (GCNEConv.get_reverse_edge_index E).getD j 0 = GCNEConv.pairIdx j :=
      get_reverse_edge_index_getD _ _ (by omega)
    have hpj : GCNEConv.pairIdx j < E := by
      unfold GCNEConv.pairIdx
      split <;> omega
    refine ⟨?_, ?_⟩
    · rw [hp, get_reverse_edge_index_getD _ _ (by omega), pairIdx_involution]
    · rw [hp]
      unfold GCNEConv.pairIdx
      split <;> omega

/-- Witness for C4 at the concrete even edge count 4. -/
theorem c4_reverse_edge_pairing_witness :
    (GCNEConv.get_reverse_edge_index 4).length = 4 ∧
    (GCNEConv.get_reverse_edge_index 4).getD 0 0 = 1 ∧
    (GCNEConv.get_reverse_edge_index 4).getD 1 0 = 0 := by
  obtain ⟨h1, h2, _⟩ := c4_reverse_edge_pairing 4 (by decide)
  exact ⟨h1, (h2 0 (by decide)).1, (h2 0 (by decide)).2⟩

/-- C8: on equal-width input rows, the additive policy returns the elementwise sum of
message and hidden state and the inner_product policy returns their elementwise
product. -/
theorem c8_additive_and_inner_product (gruCell : Row α → Row α → Row α) (mlpW : Mat α)
    (mlpB : Row α) (w : ℕ) (message hidden : Row α) (hm : message.length = w)
    (hh : hidden.length = w) (j : ℕ) (hj : j < w) :
    (NodeEdgeMessageCommunicator.forward "additive" gruCell mlpW mlpB message hidden).getD j 0
      = hidden.getD j 0 + message.getD j 0 ∧
    (NodeEdgeMessageCommunicator.forward "inner_product" gruCell mlpW mlpB message hidden).getD j 0
      = hidden.getD j 0 * message.getD j 0 := by
  constructor
  · unfold NodeEdgeMessageCommunicator.forward
    rw [if_pos rfl]
    exact getD_zipWith_lt _ _ _ j (by omega) (by omega) 0 0 0
  · unfold NodeEdgeMessageCommunicator.forward
    rw [if_neg (by decide), if_pos rfl]
    exact getD_zipWith_lt _ _ _ j (by omega) (by omega) 0 0 0

/-- Witness for C8 at the concrete rows of the spec: message [1,1], hidden [2,3]. -/
theorem c8_additive_and_inner_product_witness :
    (NodeEdgeMessageCommunicator.forward "additive" (fun _ _ => ([] : Row ℤ)) [] [] [1, 1] [2, 3]).getD 1 0 = 4 ∧
    (NodeEdgeMessageCommunicator.forward "inner_product" (fun _ _ => ([] : Row ℤ)) [] [] [1, 1] [2, 3]).getD 1 0 = 3 := by
  have h := c8_additive_and_inner_product (α := ℤ) (fun _ _ => []) [] [] 2 [1, 1] [2, 3]
    rfl rfl 1 (by decide)
  refine ⟨?_, ?_⟩
  · rw [h.1]
    decide
  · rw [h.2]
    decide

/-- C10: constructing the PNA wrapper with the class-level cache still at its initial
None fails with the assert's error, and after a compute_degree call every construction
receives that shared cached histogram as its deg argument. -/
theorem c10_pna_degree_cache {D K : Type} (hist : D) (s : Option D) (k k2 : K) :
    PNA.construct (PNA.initDeg : Option D) k
      = .error "deg cannot be None. Please call PNA.compute_degree before instantiating the class." ∧
    PNA.construct (PNA.compute_degree hist s) k = .ok (k, hist) ∧
    PNA.construct (PNA.compute_degree hist s) k2 = .ok (k2, hist) :=
  ⟨rfl, rfl, rfl⟩

/-! Construction-time checks of CMPNN. -/

theorem buildConvs_ok (name : String)
    (h : name = "additive" ∨ name = "inner_product" ∨ name = "gru" ∨ name = "mlp") (k : ℕ) :
    CMPNN.buildConvs name k = .ok (List.replicate k "GCNEConv") := by
  induction k with
  | zero => rfl
  | succ m ih =>
    unfold CMPNN.buildConvs CMPNN.mkCommunicator
    rw [if_pos h]
    simp only [bind, Except.bind, ih, List.replicate_succ]
    rfl

theorem buildConvs_err (name : String)
    (h : ¬(name = "additive" ∨ name = "inner_product" ∨ name = "gru" ∨ name = "mlp")) (m : ℕ) :
    CMPNN.buildConvs name (m + 1) = .error "Invalid communicator" := by
  unfold CMPNN.buildConvs CMPNN.mkCommunicator
  rw [if_neg h]
  rfl

/-- C6 (amended): construction succeeds exactly when the communicator policy name is
one of the four valid names, whatever the value of num_layers; an invalid name is the
assert's error, and any num_layers (including every value below 1) yields the stack of
(num_layers - 1) clamped-at-zero edge-updating layers followed by the one final layer. -/
theorem c6_construction_check (num_layers : ℤ) (name : String) :
    CMPNN.init num_layers name
      = if name = "additive" ∨ name = "inner_product" ∨ name = "gru" ∨ name = "mlp"
        then .ok (List.replicate (num_layers - 1).toNat "GCNEConv" ++ ["GCNConv"])
        else .error "Invalid communicator" := by
  by_cases h : name = "additive" ∨ name = "inner_product" ∨ name = "gru" ∨ name = "mlp"
  · rw [if_pos h]
    unfold CMPNN.init
    rw [buildConvs_ok name h]
    unfold CMPNN.mkCommunicator
    rw [if_pos h]
    rfl
  · rw [if_neg h]
    unfold CMPNN.init
    cases hk : (num_layers - 1).toNat with
    | zero =>
      have hb : CMPNN.buildConvs name 0 = .ok [] := rfl
      rw [hb]
      unfold CMPNN.mkCommunicator
      rw [if_neg h]
      rfl
    | succ m =>
      rw [buildConvs_err name h m]
      rfl

/-- C6 counterexample: with num_layers = 0 (below the claimed lower bound of 1) and a
valid policy name, construction succeeds and yields the single final convolution
layer; no num_layers check exists. -/
theorem c6_counterexample : CMPNN.init 0 "additive" = .ok ["GCNConv"] := rfl

/-! The odd edge count failure mode of the edge updater. -/

/-- C7 (amended): there is no explicit precondition check on the edge count; when the
edge count E is odd and at least 3, the reverse-index gather has E - 1 rows against
the E rows gathered from x, and the elementwise subtraction fails with the tensor
size-mismatch error, which propagates to the caller with no result. -/
theorem c7_odd_edge_count_errors (linW : Mat α) (linB : Row α) (drop : α → α)
    (x : Mat α) (edge_index0 : List ℕ) (edge_attr init_edge_embed : Mat α)
    (hlen : edge_index0.length = edge_attr.length)
    (hodd : edge_attr.length % 2 = 1) (h3 : 3 ≤ edge_attr.length) :
    GCNEConv.edge_update linW linB drop x edge_index0 edge_attr init_edge_embed
      = .error sizeMismatchMsg := by
  have hxa : (edge_index0.map (fun i => x.getD i [])).length = edge_attr.length := by
    simp [hlen]
  have hra : ((GCNEConv.get_reverse_edge_index edge_attr.length).map
      (fun j => edge_attr.getD j [])).length = edge_attr.length - 1 := by
    simp only [List.length_map, get_reverse_edge_index_length]
    omega
  have hsub : subMatB (edge_index0.map (fun i => x.getD i []))
      ((GCNEConv.get_reverse_edge_index edge_attr.length).map (fun j => edge_attr.getD j []))
      = (.error sizeMismatchMsg : Except String (Mat α)) := by
    unfold subMatB
    rw [if_neg (by omega), if_neg (by omega), if_neg (by omega)]
  unfold GCNEConv.edge_update
  rw [hsub]
  rfl

/-- Witness for C7 at the concrete odd edge count 3. -/
theorem c7_odd_edge_count_errors_witness :
    GCNEConv.edge_update [[(1 : ℤ)]] [0] (fun a => a) [[0], [0], [0]] [0, 1, 2]
        [[1], [2], [3]] [[0], [0], [0]] = .error sizeMismatchMsg :=
  c7_odd_edge_count_errors _ _ _ _ _ _ _ rfl (by decide) (by decide)

/-- C7 counterexample: with a single directed edge (odd edge count 1) the call does
not fail: the 1-row gather from x broadcasts against the empty reverse gather, and an
empty (0-row) edge result is returned with no error. -/
theorem c7_counterexample :
    GCNEConv.edge_update [[(1 : ℤ)]] [0] (fun a => a) [[1]] [0] [[5]] [[7]] = .ok [] := rfl

/-! The final convolution layer. -/

/-- C3 (amended): the final convolution layer omits the edge update entirely, but its
aggregated message still goes through the communicator update: row n of
GCNConv.forward is the communicator applied to the fused aggregated message at n and
the prior node embedding at n. -/
theorem c3_final_layer_update (commName : String) (commGru : Row α → Row α → Row α)
    (commMlpW : Mat α) (commMlpB : Row α) (booster : Row α → Row α → Row α) (hidden : ℕ)
    (x edge_attr : Mat α) (edge_index1 : List ℕ) (n : ℕ) (hn : n < x.length) :
    (GCNConv.forward commName commGru commMlpW commMlpB booster hidden
        x edge_attr edge_index1).getD n []
      = NodeEdgeMessageCommunicator.forward commName commGru commMlpW commMlpB
          ((aggregateMessages booster hidden edge_attr edge_index1 x.length).getD n [])
          (x.getD n []) := by
  unfold GCNConv.forward propagateStep
  rw [getD_map_lt _ _ n (by simpa using hn) 0, getD_range_lt _ _ hn]

/-- Witness for C3 on the two directed edges of one bond with the additive
communicator and the elementwise-product fusion. -/
theorem c3_final_layer_update_witness :
    (GCNConv.forward "additive" (fun _ _ => ([] : Row ℤ)) [] []
        (fun s m => List.zipWith (fun a b => a * b) s m) 1 [[1], [1]] [[1], [1]] [1, 0]).getD 0 []
      = NodeEdgeMessageCommunicator.forward "additive" (fun _ _ => []) [] []
          ((aggregateMessages (fun s m => List.zipWith (fun a b => a * b) s m) 1
              [[1], [1]] [1, 0] 2).getD 0 [])
          ([[(1 : ℤ)], [1]].getD 0 []) :=
  c3_final_layer_update _ _ _ _ _ _ _ _ _ 0 (by decide)

/-- C3 counterexample: on that same graph the final layer returns [[2],[2]] while the
raw fused aggregate is [[1],[1]]: the returned value is not the raw aggregated
message, it is combined with the prior node embedding by the communicator. -/
theorem c3_counterexample :
    GCNConv.forward "additive" (fun _ _ => ([] : Row ℤ)) [] []
        (fun s m => List.zipWith (fun a b => a * b) s m) 1 [[1], [1]] [[1], [1]] [1, 0]
      ≠ aggregateMessages (fun s m => List.zipWith (fun a b => a * b) s m) 1
          [[1], [1]] [1, 0] 2 := by decide

/-! The readout's padding leak. -/

/-- The standard gated recurrent cell with every weight and bias zero halves its state
whatever its input: genuine recurrent weights realize a cell for which consuming a
zero padding row changes the state, which is what c1_padding_leak exhibits. -/
theorem gruCellStd_zero_weights (x h : ℝ) :
    gruCellStd (fun t => 1 / (1 + Real.exp (-t))) Real.tanh 0 0 0 0 0 0 0 0 0 0 0 0 x h = h / 2 := by
  unfold gruCellStd
  norm_num [Real.exp_zero, Real.tanh_zero]
  ring

theorem scanl_last_foldl {β γ : Type} (g : γ → β → γ) (l : List β) (b : γ) (d : γ) :
    (List.scanl g b l).reverse.getD 0 d = l.foldl g b := by
  induction l generalizing b with
  | nil => rfl
  | cons x t ih =>
    rw [List.scanl_cons, List.reverse_append]
    rw [getD_append_lt _ _ 0 (by simp [List.length_reverse, List.length_scanl]) d]
    exact ih (g b x)

omit [LinearOrderedCommRing α] in
/-- The forward-direction output at position t depends only on the first t + 1 input
rows: padding placed after a graph's real rows cannot reach the forward outputs of the
real positions, which is the sound half of the spec's padding argument. -/
theorem gruSeqF_getD (cell : Row α → Row α → Row α) (inputs : Mat α) (seed : Row α) (t : ℕ)
    (ht : t < inputs.length) :
    (BatchGRU.gruSeqF cell seed inputs).getD t []
      = (inputs.take (t + 1)).foldl (fun s xin => cell xin s) seed := by
  induction inputs generalizing seed t with
  | nil => exact absurd ht (Nat.not_lt_zero t)
  | cons x l ih =>
    cases t with
    | zero =>
      cases l with
      | nil => rfl
      | cons y t2 => rfl
    | succ t2 =>
      have hstep : (BatchGRU.gruSeqF cell seed (x :: l)).getD (t2 + 1) []
          = (BatchGRU.gruSeqF cell (cell x seed) l).getD t2 [] := by
        unfold BatchGRU.gruSeqF
        rw [List.scanl_cons]
        cases l with
        | nil => rfl
        | cons y t3 => rfl
      rw [hstep, ih (cell x seed) t2 (Nat.lt_of_succ_lt_succ ht)]
      rfl

omit [LinearOrderedCommRing α] in
/-- The backward-direction output at position 0 is the fold of the cell over the whole
reversed input sequence: for a graph shorter than the batch maximum, every padding row
is consumed by the backward scan before its real rows, which is how the padding leaks
into the outputs that c1_padding_leak exhibits. -/
theorem gruSeqB_getD_zero (cell : Row α → Row α → Row α) (seed : Row α) (inputs : Mat α)
    (h : inputs ≠ []) :
    (BatchGRU.gruSeqB cell seed inputs).getD 0 []
      = inputs.reverse.foldl (fun s xin => cell xin s) seed := by
  unfold BatchGRU.gruSeqB BatchGRU.gruSeqF
  cases hrev : inputs.reverse with
  | nil => exact absurd (by simpa using hrev) h
  | cons x t =>
    rw [List.scanl_cons]
    have hdrop : List.drop 1 ([seed] ++ List.scanl (fun s xin => cell xin s) (cell x seed) t)
        = List.scanl (fun s xin => cell xin s) (cell x seed) t := rfl
    rw [hdrop, scanl_last_foldl]
    rfl

/-- C1: the padded zero rows do influence a real row's output.  With both recurrent
cells instantiated at a state-advancing map (h plus one per component; the zero-weight
genuine cell of gruCellStd_zero_weights leaks in the same structural way), the readout
row of the single-node graph packed next to a 3-node graph is [2, 4] because its
backward direction consumes the two padding rows first, while running that graph alone
as a batch of one yields [2, 2]. -/
theorem c1_padding_leak :
    (BatchGRU.forward (fun _ h => h.map (fun a => a + 1)) (fun _ h => h.map (fun a => a + 1))
        1 [0] [[0], [0], [0], [(1 : ℤ)]] [0, 0, 0, 1]).getD 3 []
      ≠ (BatchGRU.forward (fun _ h => h.map (fun a => a + 1)) (fun _ h => h.map (fun a => a + 1))
          1 [0] [[(1 : ℤ)]] [0]).getD 0 [] := by decide

/-! The edge update of the edge-updating convolution layer. -/

theorem bind_ok_eq {ε β γ : Type} (b : β) (g : β → Except ε γ) :
    (do let v ← (.ok b : Except ε β); g v) = g b := rfl

theorem except_bind_ok {ε β γ : Type} (e : Except ε β) (g : β → Except ε γ) (res : γ)
    (h : (do let b ← e; g b) = (.ok res : Except ε γ)) : ∃ b, e = .ok b ∧ g b = .ok res := by
  cases e with
  | error m => exact Except.noConfusion h
  | ok b => exact ⟨b, rfl, h⟩

theorem edge_update_even (linW : Mat α) (linB : Row α) (drop : α → α) (x2 : Mat α)
    (edge_index0 : List ℕ) (edge_attr init_edge_embed : Mat α)
    (hlen : edge_index0.length = edge_attr.length)
    (hinit : init_edge_embed.length = edge_attr.length)
    (hE : edge_attr.length % 2 = 0) :
    GCNEConv.edge_update linW linB drop x2 edge_index0 edge_attr init_edge_embed
      = .ok (okD [] (GCNEConv.edge_update linW linB drop x2 edge_index0 edge_attr init_edge_embed)) ∧
    ∀ e, e < edge_attr.length →
      (okD [] (GCNEConv.edge_update linW linB drop x2 edge_index0 edge_attr init_edge_embed)).getD e []
        = (reluRow (List.zipWith (fun a b => a + b) (init_edge_embed.getD e [])
            (linearRow linW linB (List.zipWith (fun a b => a - b)
              (x2.getD (edge_index0.getD e 0) [])
              (edge_attr.getD (GCNEConv.pairIdx e) []))))).map drop := by
  have hA : (edge_index0.map (fun i => x2.getD i [])).length = edge_attr.length := by
    simp [hlen]
  have hB : ((GCNEConv.get_reverse_edge_index edge_attr.length).map
      (fun j => edge_attr.getD j [])).length = edge_attr.length := by
    simp only [List.length_map, get_reverse_edge_index_length]
    omega
  have hsub : subMatB (edge_index0.map (fun i => x2.getD i []))
      ((GCNEConv.get_reverse_edge_index edge_attr.length).map (fun j => edge_attr.getD j []))
      = .ok (List.zipWith (fun r s => List.zipWith (fun a b => a - b) r s)
          (edge_index0.map (fun i => x2.getD i []))
          ((GCNEConv.get_reverse_edge_index edge_attr.length).map (fun j => edge_attr.getD j []))) := by
    unfold subMatB
    rw [if_pos (by omega)]
  have hDlen : (List.zipWith (fun r s => List.zipWith (fun a b => a - b) r s)
      (edge_index0.map (fun i => x2.getD i []))
      ((GCNEConv.get_reverse_edge_index edge_attr.length).map (fun j => edge_attr.getD j []))).length
      = edge_attr.length := by
    simp only [List.length_zipWith, List.length_map, get_reverse_edge_index_length]
    omega
  have hadd : addMatB init_edge_embed
      ((List.zipWith (fun r s => List.zipWith (fun a b => a - b) r s)
        (edge_index0.map (fun i => x2.getD i []))
        ((GCNEConv.get_reverse_edge_index edge_attr.length).map (fun j => edge_attr.getD j []))).map
        (fun r => linearRow linW linB r))
      = .ok (List.zipWith (fun r s => List.zipWith (fun a b => a + b) r s) init_edge_embed
          ((List.zipWith (fun r s => List.zipWith (fun a b => a - b) r s)
            (edge_index0.map (fun i => x2.getD i []))
            ((GCNEConv.get_reverse_edge_index edge_attr.length).map (fun j => edge_attr.getD j []))).map
            (fun r => linearRow linW linB r))) := by
    unfold addMatB
    rw [if_pos (by rw [List.length_map, hDlen, hinit])]
  have hmain : GCNEConv.edge_update linW linB drop x2 edge_index0 edge_attr init_edge_embed
      = .ok ((List.zipWith (fun r s => List.zipWith (fun a b => a + b) r s) init_edge_embed
          ((List.zipWith (fun r s => List.zipWith (fun a b => a - b) r s)
            (edge_index0.map (fun i => x2.getD i []))
            ((GCNEConv.get_reverse_edge_index edge_attr.length).map (fun j => edge_attr.getD j []))).map
            (fun r => linearRow linW linB r))).map (fun r => (reluRow r).map drop)) := by
    unfold GCNEConv.edge_update
    simp only [hsub, bind_ok_eq, hadd]
    rfl
  refine ⟨by rw [hmain]; rfl, fun e he => ?_⟩
  rw [hmain]
  simp only [okD]
  rw [getD_map_lt _ _ e
    (by simp only [List.length_map, List.length_zipWith, get_reverse_edge_index_length]; omega) []]
  rw [getD_zipWith_lt _ init_edge_embed _ e (by omega)
    (by simp only [List.length_map, List.length_zipWith, get_reverse_edge_index_length]; omega) [] [] []]
  rw [getD_map_lt (fun r => linearRow linW linB r) _ e (by rw [hDlen]; exact he) []]
  rw [getD_zipWith_lt _ _ _ e (by rw [hA]; exact he) (by rw [hB]; exact he) [] [] []]
  rw [getD_map_lt (fun i => x2.getD i []) edge_index0 e (by omega) 0]
  rw [getD_map_lt (fun j => edge_attr.getD j []) _ e (by rw [get_reverse_edge_index_length]; omega) 0]
  rw [get_reverse_edge_index_getD _ _ (by omega)]

/-- C2 (amended): in the edge-updating layer, the new embedding of edge e with paired
reverse edge pairIdx e (e + 1 for even e, e - 1 for odd e) is dropout of relu of the
initial pre-any-layer edge embedding plus the linear projection of the difference
between the updated node embedding at the edge's entry in edge_index[0] (its src,
the node the edge emanates from under the layer's source_to_target flow) and the
current embedding of the reverse edge; GCNEConv.forward feeds the edge updater the
propagated (updated) node embeddings. -/
theorem c2_edge_update_formula (commName : String) (commGru : Row α → Row α → Row α)
    (commMlpW : Mat α) (commMlpB : Row α) (booster : Row α → Row α → Row α) (hidden : ℕ)
    (linW : Mat α) (linB : Row α) (drop : α → α) (x edge_attr : Mat α)
    (edge_index0 edge_index1 : List ℕ) (init_edge_embed : Mat α)
    (hlen : edge_index0.length = edge_attr.length)
    (hinit : init_edge_embed.length = edge_attr.length)
    (hE : edge_attr.length % 2 = 0) (e : ℕ) (he : e < edge_attr.length) :
    GCNEConv.forward commName commGru commMlpW commMlpB booster hidden linW linB drop
        x edge_attr edge_index0 edge_index1 init_edge_embed
      = .ok
          (propagateStep commName commGru commMlpW commMlpB booster hidden x edge_attr edge_index1,
           okD [] (GCNEConv.edge_update linW linB drop
             (propagateStep commName commGru commMlpW commMlpB booster hidden x edge_attr edge_index1)
             edge_index0 edge_attr init_edge_embed)) ∧
    (okD [] (GCNEConv.edge_update linW linB drop
        (propagateStep commName commGru commMlpW commMlpB booster hidden x edge_attr edge_index1)
        edge_index0 edge_attr init_edge_embed)).getD e []
      = (reluRow (List.zipWith (fun a b => a + b) (init_edge_embed.getD e [])
          (linearRow linW linB (List.zipWith (fun a b => a - b)
            ((propagateStep commName commGru commMlpW commMlpB booster hidden
                x edge_attr edge_index1).getD (edge_index0.getD e 0) [])
            (edge_attr.getD (GCNEConv.pairIdx e) []))))).map drop := by
  obtain ⟨h1, h2⟩ := edge_update_even linW linB drop
    (propagateStep commName commGru commMlpW commMlpB booster hidden x edge_attr edge_index1)
    edge_index0 edge_attr init_edge_embed hlen hinit hE
  refine ⟨?_, h2 e he⟩
  have hfwd : GCNEConv.forward commName commGru commMlpW commMlpB booster hidden linW linB drop
      x edge_attr edge_index0 edge_index1 init_edge_embed
      = Except.map
          (fun ea => (propagateStep commName commGru commMlpW commMlpB booster hidden
            x edge_attr edge_index1, ea))
          (GCNEConv.edge_update linW linB drop
            (propagateStep commName commGru commMlpW commMlpB booster hidden x edge_attr edge_index1)
            edge_index0 edge_attr init_edge_embed) := rfl
  rw [hfwd]
  conv_lhs => rw [h1]
  rfl

/-- Witness for C2 on the two directed edges of one bond (edge_index columns (0,1) and
(1,0)), additive communicator, elementwise-product fusion, identity dropout. -/
theorem c2_edge_update_formula_witness :
    GCNEConv.forward "additive" (fun _ _ => ([] : Row ℤ)) [] []
        (fun s m => List.zipWith (fun a b => a * b) s m) 1 [[1]] [0] (fun a => a)
        [[1], [0]] [[0], [0]] [0, 1] [1, 0] [[0], [0]]
      = .ok ([[1], [0]], [[1], [0]]) := by
  have h := c2_edge_update_formula "additive" (fun _ _ => ([] : Row ℤ)) [] []
    (fun s m => List.zipWith (fun a b => a * b) s m) 1 [[1]] [0] (fun a => a)
    [[1], [0]] [[0], [0]] [0, 1] [1, 0] [[0], [0]] rfl rfl (by decide) 0 (by decide)
  rw [h.1]
  rfl

/-- C2 counterexample: the code updates each edge from the node written in
edge_index[0]; reading the updated node embedding at dst = edge_index[1] instead, as
the claim words it, gives a different result on the two directed edges of one bond
with x2 = [[1],[0]]: the code yields ok [[1],[0]], the dst reading ok [[0],[1]]. -/
theorem c2_counterexample :
    GCNEConv.edge_update [[(1 : ℤ)]] [0] (fun a => a) [[1], [0]] [0, 1] [[0], [0]] [[0], [0]]
      ≠ GCNEConv.edge_update_spec_dst [[(1 : ℤ)]] [0] (fun a => a) [[1], [0]] [1, 0]
          [[0], [0]] [[0], [0]] :=
  fun h => absurd (congrArg (okD []) h) (by decide)

/-! The packing and seeding of the batched readout. -/

theorem indicesOf_mem (batch : List ℕ) (v i : ℕ) (h : i ∈ BatchGRU.indicesOf batch v) :
    i < batch.length ∧ batch.getD i 0 = v := by
  unfold BatchGRU.indicesOf at h
  rw [List.mem_filter] at h
  obtain ⟨h1, h2⟩ := h
  exact ⟨List.mem_range.mp h1, by simpa using h2⟩

theorem indicesOf_ne_nil (batch : List ℕ) (v : ℕ) (hv : v ∈ batch) :
    BatchGRU.indicesOf batch v ≠ [] := by
  obtain ⟨i, hi, hgv⟩ := List.mem_iff_getElem.mp hv
  intro hnil
  have hmem : i ∈ BatchGRU.indicesOf batch v := by
    unfold BatchGRU.indicesOf
    rw [List.mem_filter]
    refine ⟨List.mem_range.mpr hi, ?_⟩
    simp only [beq_iff_eq]
    rw [List.getD_eq_getElem batch 0 hi]
    exact hgv
  rw [hnil] at hmem
  exact absurd hmem (List.not_mem_nil i)

theorem foldl_zipmax_length (w : ℕ) (rs : Mat α) (r : Row α) (hr : r.length = w)
    (hrs : ∀ q ∈ rs, q.length = w) :
    (rs.foldl (fun acc q => List.zipWith max acc q) r).length = w := by
  induction rs generalizing r with
  | nil => simpa using hr
  | cons q t ih =>
    simp only [List.foldl_cons]
    exact ih (List.zipWith max r q)
      (by simp [List.length_zipWith, hr, hrs q (by simp)])
      (fun p hp => hrs p (by simp [hp]))

theorem foldl_zipmax_le (w j : ℕ) (hj : j < w) (rs : Mat α) (r : Row α) (hr : r.length = w)
    (hrs : ∀ q ∈ rs, q.length = w) :
    r.getD j 0 ≤ (rs.foldl (fun acc q => List.zipWith max acc q) r).getD j 0 ∧
    ∀ q ∈ rs, q.getD j 0 ≤ (rs.foldl (fun acc q => List.zipWith max acc q) r).getD j 0 := by
  induction rs generalizing r with
  | nil => exact ⟨le_refl _, fun q hq => absurd hq (List.not_mem_nil q)⟩
  | cons q t ih =>
    simp only [List.foldl_cons]
    have hq : q.length = w := hrs q (by simp)
    have hzw : (List.zipWith max r q).length = w := by simp [List.length_zipWith, hr, hq]
    have hih := ih (List.zipWith max r q) hzw (fun p hp => hrs p (by simp [hp]))
    have hget : (List.zipWith max r q).getD j 0 = max (r.getD j 0) (q.getD j 0) :=
      getD_zipWith_lt max r q j (by omega) (by omega) 0 0 0
    refine ⟨le_trans (by rw [hget]; exact le_max_left _ _) hih.1, fun p hp => ?_⟩
    rcases List.mem_cons.mp hp with rfl | hp2
    · exact le_trans (by rw [hget]; exact le_max_right _ _) hih.1
    · exact hih.2 p hp2

theorem foldl_zipmax_mem (w j : ℕ) (hj : j < w) (rs : Mat α) (r : Row α) (hr : r.length = w)
    (hrs : ∀ q ∈ rs, q.length = w) :
    (rs.foldl (fun acc q => List.zipWith max acc q) r).getD j 0 = r.getD j 0 ∨
    ∃ q ∈ rs, (rs.foldl (fun acc q => List.zipWith max acc q) r).getD j 0 = q.getD j 0 := by
  induction rs generalizing r with
  | nil => exact Or.inl rfl
  | cons q t ih =>
    simp only [List.foldl_cons]
    have hq : q.length = w := hrs q (by simp)
    have hzw : (List.zipWith max r q).length = w := by simp [List.length_zipWith, hr, hq]
    have hget : (List.zipWith max r q).getD j 0 = max (r.getD j 0) (q.getD j 0) :=
      getD_zipWith_lt max r q j (by omega) (by omega) 0 0 0
    rcases ih (List.zipWith max r q) hzw (fun p hp => hrs p (by simp [hp])) with h1 | ⟨p, hp, hpe⟩
    · rw [h1, hget]
      rcases max_cases (r.getD j 0) (q.getD j 0) with ⟨hm, _⟩ | ⟨hm, _⟩
      · exact Or.inl hm
      · exact Or.inr ⟨q, by simp, hm⟩
    · exact Or.inr ⟨p, by simp [hp], hpe⟩

theorem maxRows_length (w : ℕ) (L : Mat α) (hL : L ≠ []) (hw : ∀ r ∈ L, r.length = w) :
    (BatchGRU.maxRows L).length = w := by
  cases L with
  | nil => exact absurd rfl hL
  | cons r0 t =>
    unfold BatchGRU.maxRows
    exact foldl_zipmax_length w t r0 (hw r0 (by simp)) (fun q hq => hw q (by simp [hq]))

theorem maxRows_le (w j : ℕ) (hj : j < w) (L : Mat α) (hL : L ≠ [])
    (hw : ∀ r ∈ L, r.length = w) :
    ∀ r ∈ L, r.getD j 0 ≤ (BatchGRU.maxRows L).getD j 0 := by
  cases L with
  | nil => exact absurd rfl hL
  | cons r0 t =>
    unfold BatchGRU.maxRows
    intro r hr
    have h := foldl_zipmax_le w j hj t r0 (hw r0 (by simp)) (fun q hq => hw q (by simp [hq]))
    rcases List.mem_cons.mp hr with rfl | hr2
    · exact h.1
    · exact h.2 r hr2

theorem maxRows_mem (w j : ℕ) (hj : j < w) (L : Mat α) (hL : L ≠ [])
    (hw : ∀ r ∈ L, r.length = w) :
    ∃ r ∈ L, (BatchGRU.maxRows L).getD j 0 = r.getD j 0 := by
  cases L with
  | nil => exact absurd rfl hL
  | cons r0 t =>
    unfold BatchGRU.maxRows
    rcases foldl_zipmax_mem w j hj t r0 (hw r0 (by simp)) (fun q hq => hw q (by simp [hq]))
      with h1 | ⟨p, hp, hpe⟩
    · exact ⟨r0, by simp, h1⟩
    · exact ⟨p, by simp [hp], hpe⟩

/-- C9: the t-th row fed to the recurrent layer for graph v is
rectify(node_embed + bias) of the graph's t-th member node, while the initial
recurrent state graph_seed v (the one value BatchGRU.forward hands to both the
forward and the backward scan) is the per-graph columnwise maximum of the
pre-activation node embedding h_atom: it bounds every member row of h_atom from
above and is attained by one of them in each column. -/
theorem c9_readout_inputs_and_seeds (hidden : ℕ) (bias : Row α) (h_atom : Mat α)
    (batch : List ℕ) (m v t i j : ℕ)
    (hbias : bias.length = hidden)
    (hw : ∀ r ∈ h_atom, r.length = hidden)
    (hlen : batch.length = h_atom.length)
    (hv : v ∈ batch)
    (ht : t < (BatchGRU.indicesOf batch v).length)
    (hi : i ∈ BatchGRU.indicesOf batch v)
    (hj : j < hidden) :
    (BatchGRU.graph_inputs hidden bias h_atom batch m v).getD t []
      = reluRow (List.zipWith (fun a b => a + b)
          (h_atom.getD ((BatchGRU.indicesOf batch v).getD t 0) []) bias) ∧
    (h_atom.getD i []).getD j 0 ≤ (BatchGRU.graph_seed hidden h_atom batch v).getD j 0 ∧
    ∃ i2 ∈ BatchGRU.indicesOf batch v,
      (BatchGRU.graph_seed hidden h_atom batch v).getD j 0 = (h_atom.getD i2 []).getD j 0 := by
  have hidx : (BatchGRU.indicesOf batch v).getD t 0 ∈ BatchGRU.indicesOf batch v :=
    getD_mem_of_lt _ t ht 0
  have hidxlt : (BatchGRU.indicesOf batch v).getD t 0 < h_atom.length := by
    have := (indicesOf_mem batch v _ hidx).1
    omega
  have hrowlen : (h_atom.getD ((BatchGRU.indicesOf batch v).getD t 0) []).length = hidden :=
    hw _ (getD_mem_of_lt h_atom _ hidxlt [])
  have hL : (BatchGRU.indicesOf batch v).map (fun i2 => h_atom.getD i2 []) ≠ [] := by
    intro hcontra
    exact indicesOf_ne_nil batch v hv (List.map_eq_nil_iff.mp hcontra)
  have hwL : ∀ r ∈ (BatchGRU.indicesOf batch v).map (fun i2 => h_atom.getD i2 []),
      r.length = hidden := by
    intro r hr
    obtain ⟨i2, hi2, rfl⟩ := List.mem_map.mp hr
    have hi2lt : i2 < h_atom.length := by
      have := (indicesOf_mem batch v i2 hi2).1
      omega
    exact hw _ (getD_mem_of_lt h_atom i2 hi2lt [])
  have hseed : BatchGRU.graph_seed hidden h_atom batch v
      = BatchGRU.maxRows ((BatchGRU.indicesOf batch v).map (fun i2 => h_atom.getD i2 [])) := by
    unfold BatchGRU.graph_seed
    exact assignRow_of_length _ _ (maxRows_length hidden _ hL hwL)
  refine ⟨?_, ?_, ?_⟩
  · unfold BatchGRU.graph_inputs
    rw [getD_append_lt _ _ t (by simpa using ht) []]
    rw [getD_map_lt _ _ t ht 0]
    rw [getD_map_lt _ h_atom _ hidxlt []]
    rw [baddRow_of_length_eq _ _ (by rw [hrowlen, hbias])]
    refine assignRow_of_length _ _ ?_
    simp only [reluRow, List.length_map, List.length_zipWith, hrowlen, hbias, min_self]
  · rw [hseed]
    refine maxRows_le hidden j hj _ hL hwL _ ?_
    exact List.mem_map.mpr ⟨i, hi, rfl⟩
  · rw [hseed]
    obtain ⟨r, hr, hre⟩ := maxRows_mem hidden j hj _ hL hwL
    obtain ⟨i2, hi2, rfl⟩ := List.mem_map.mp hr
    exact ⟨i2, hi2, hre⟩

/-- Witness for C9 on a batch of one graph with two nodes. -/
theorem c9_readout_inputs_and_seeds_witness :
    (BatchGRU.graph_inputs 1 [0] [[(5 : ℤ)], [7]] [0, 0] 2 0).getD 1 []
      = reluRow (List.zipWith (fun a b => a + b)
          ([[(5 : ℤ)], [7]].getD ((BatchGRU.indicesOf [0, 0] 0).getD 1 0) []) [0]) ∧
    ([[(5 : ℤ)], [7]].getD 0 []).getD 0 0 ≤ (BatchGRU.graph_seed 1 [[(5 : ℤ)], [7]] [0, 0] 0).getD 0 0 ∧
    ∃ i2 ∈ BatchGRU.indicesOf [0, 0] 0,
      (BatchGRU.graph_seed 1 [[(5 : ℤ)], [7]] [0, 0] 0).getD 0 0 = ([[(5 : ℤ)], [7]].getD i2 []).getD 0 0 :=
  c9_readout_inputs_and_seeds 1 [0] [[5], [7]] [0, 0] 2 0 1 0 0 rfl (by decide) rfl
    (by decide) (by decide) (by decide) (by decide)

/-! The output shape of the full forward pass. -/

theorem batchGRU_forward_length (cellF cellB : Row α → Row α → Row α) (hidden : ℕ)
    (bias : Row α) (h_atom : Mat α) (batch : List ℕ) :
    (BatchGRU.forward cellF cellB hidden bias h_atom batch).length = h_atom.length := by
  unfold BatchGRU.forward
  simp [List.length_map, List.length_range]

/-- C5 (amended): whenever the forward pass returns a result, that result has exactly
N rows (one per node) and seq_out-width columns, which the constructor fixes at
hidden_channels (seq_out ends in a hidden_channels-output linear layer), not at
out_channels; out_channels only sizes the intermediate 3 H linear combination. -/
theorem c5_output_shape (p : CMPNNParams α) (x edge_attr : Mat α)
    (edge_index0 edge_index1 batch : List ℕ) (res : Mat α)
    (hres : CMPNN.forward p x edge_attr edge_index0 edge_index1 batch = .ok res)
    (hsb : p.seqB.length = p.seqW.length) :
    res.length = x.length ∧ ∀ r ∈ res, r.length = p.seqW.length := by
  unfold CMPNN.forward at hres
  obtain ⟨ab, hF, hres2⟩ := except_bind_ok _ _ _ hres
  have hres3 := Except.ok.inj hres2
  rw [← hres3]
  constructor
  · rw [List.length_map, batchGRU_forward_length, List.length_map, List.length_range]
  · intro r hr
    obtain ⟨q, hq, rfl⟩ := List.mem_map.mp hr
    simp [reluRow, linearRow, List.length_map, List.length_zipWith, hsb]

/-- Witness for C5: the successful run of the concrete one-layer model cex5P on a
single-node graph has one row (N = 1) whose width is the seq_out width 2. -/
theorem c5_output_shape_witness :
    ([[(24 : ℤ), 24]] : Mat ℤ).length = ([[(1 : ℤ)]] : Mat ℤ).length ∧
    ∀ r ∈ ([[(24 : ℤ), 24]] : Mat ℤ), r.length = cex5P.seqW.length :=
  c5_output_shape cex5P [[1]] [] [] [] [0] [[24, 24]] rfl rfl

/-- C5 counterexample: cex5P has out_channels = 1 (its lin weight has one output row)
and hidden_channels = 2, and the forward pass on a valid single-node batch succeeds
and returns a 1 x 2 matrix: the output has hidden_channels columns, not out_channels
columns. -/
theorem c5_counterexample :
    Except.map (fun m => m.map List.length) (CMPNN.forward cex5P [[1]] [] [] [] [0])
      = Except.ok [2] ∧ cex5P.linW.length = 1 :=
  ⟨rfl, rfl⟩

end LitGNN
